import Mathlib

/-!
Verification of the timing-computation layer of the perf.html profiler
front-end (devtools-html/perf.html).

The repository's core timing algorithms (interval aggregation by depth,
flame-graph layout, marker row packing, max-depth computation, the
platform-details collapse and the bisection utility) are exercised by the
test suite in `src/test/store/actions.test.js` and consumed by
`TrackNetwork` (the `NetworkCanvas` hit test and draw loop) and by
`LocalTrack`.  The canvas hit test, the draw loop's lane mapping and the
`LocalTrack` dispatch are embedded from their sources; the pure
profile-logic functions are modelled from the specification and validated
below against the exact expectations of the repository's own tests.

Conventions of the shallow embedding: times are `Int` (the fixtures use
integer milliseconds), entity ids (stack index, call-node index, marker
index, category) are `Nat`.  A timing row, which the JavaScript represents
as four parallel equal-length arrays `{start, end, index/stack, length}`,
is embedded as a list of `(start, end, id)` triples; the parallel arrays
are recovered by the projections `timingStart`, `timingEnd`,
`timingIndex`.
-/

namespace PerfHtml

/-- One timing interval: start time, end time, entity id. -/
abbrev Interval := Int × Int × Nat

/-- A timing row: the JS `{start: number[], end: number[], index: number[],
length}` structure with its four parallel arrays represented as one list of
triples. -/
abbrev TimingRow := List Interval

/-- The `start` array of a row. -/
def timingStart (r : TimingRow) : List Int := r.map (fun e => e.1)

/-- The `end` array of a row. -/
def timingEnd (r : TimingRow) : List Int := r.map (fun e => e.2.1)

/-- The `index` (or `stack`) array of a row. -/
def timingIndex (r : TimingRow) : List Nat := r.map (fun e => e.2.2)

/-- Modelled from the spec (§4.3, §4.5; the aggregator itself is not under
`src/`, only its tests are): the interval-timing aggregator.  State: the
currently open interval `(startTime, id)` if any, and `prev`, the time of
the previously consumed sample.  A new interval starts when the entity id
changes from the previous sample (null opens no interval), the current
interval closes at the time of the change, and an interval still open
after the last sample closes at `lastTime + interval` (the stack chart's
minimal synthetic width for the final sample, `interval` being the
profile's sampling interval). -/
def aggFrom (interval : Int) : Option (Int × Nat) → Int → List (Int × Option Nat) → TimingRow
  | none, _, [] => []
  | some (st, v), prev, [] => [(st, prev + interval, v)]
  | none, _, (t, none) :: rest => aggFrom interval none t rest
  | none, _, (t, some w) :: rest => aggFrom interval (some (t, w)) t rest
  | some (st, v), _, (t, none) :: rest => (st, t, v) :: aggFrom interval none t rest
  | some (st, v), _, (t, some w) :: rest =>
      if v = w then aggFrom interval (some (st, v)) t rest
      else (st, t, v) :: aggFrom interval (some (t, w)) t rest

/-- The aggregator applied to one row's `(time, entity-id-or-null)`
sequence; initially no interval is open (the initial `prev` is irrelevant
in that state). -/
def aggregate (samples : List (Int × Option Nat)) (interval : Int) : TimingRow :=
  aggFrom interval none 0 samples

/-- Modelled from the spec (§4.4): the per-sample entity id at depth `d`
is the node at depth `d` of the sample's call path, or null when the path
is shorter.  A sample is `(time, path)`, the path listing entity ids from
the root down. -/
def rowInput (samples : List (Int × List Nat)) (d : Nat) : List (Int × Option Nat) :=
  samples.map (fun s => (s.1, s.2.get? d))

/-- Depth of the deepest path among the samples. -/
def maxPathLen (samples : List (Int × List Nat)) : Nat :=
  samples.foldl (fun acc s => max acc s.2.length) 0

/-- Modelled from the spec (§4.4, the builder is not under `src/`): the
stack-chart timing, one aggregated row per depth from `0` to the maximal
visible depth; deeper rows, which would be empty, are omitted. -/
def getStackTimingByDepth (samples : List (Int × List Nat)) (interval : Int) : List TimingRow :=
  (List.range (maxPathLen samples)).map (fun d => aggregate (rowInput samples d) interval)

/-- The fixture of `selectors/getStackTimingByDepthForStackChart`
(`src/test/store/actions.test.js`): ten samples at `0, 10, …, 90` ms whose
per-depth stack indices are read off the comment table of that test
(depth-indexed columns; the sample at `40` only reaches depth 0). -/
def fixtureSamples : List (Int × List Nat) :=
  [(0, [0, 1]), (10, [0, 1, 2]), (20, [0, 1, 2]), (30, [0, 1, 3]),
   (40, [0]), (50, [0, 1]), (60, [0, 1, 4]), (70, [0, 1, 4, 5]),
   (80, [0, 1, 4, 5, 6, 7, 8]), (90, [0, 1, 4])]

/-- The rows the repository's own test expects for `fixtureSamples`
(`expect(stackTimingByDepth).toEqual([...])`, lines 46–54 of
`actions.test.js`), transcribed to the triple representation. -/
def fixtureExpected : List TimingRow :=
  [[(0, 91, 0)],
   [(0, 40, 1), (50, 91, 1)],
   [(10, 30, 2), (30, 40, 3), (60, 91, 4)],
   [(70, 90, 5)],
   [(80, 90, 6)],
   [(80, 90, 7)],
   [(80, 90, 8)]]

/-- Validation of the aggregator model: with the profile's sampling
interval of 1 ms it reproduces, row for row, the expected output of the
repository's unfiltered stack-chart test. -/
theorem stackTiming_matches_fixture :
    getStackTimingByDepth fixtureSamples 1 = fixtureExpected := by decide

/-- Start is no later than end, for one interval. -/
def startLE (e : Interval) : Bool := decide (e.1 ≤ e.2.1)

/-- Each interval ends no later than the next one starts. -/
def chainOK : TimingRow → Bool
  | [] => true
  | [_] => true
  | a :: b :: rest => decide (a.2.1 ≤ b.1) && chainOK (b :: rest)

/-- The row invariant of the spec's data model (§3): intervals are sorted
by start time and pairwise non-overlapping, `start[i] ≤ end[i] ≤
start[i+1]`. -/
def intervalsWF (r : TimingRow) : Bool := r.all startLE && chainOK r

theorem chainOK_cons {a : Interval} {l : TimingRow} :
    chainOK (a :: l) = true ↔ (∀ b ∈ l.head?, a.2.1 ≤ b.1) ∧ chainOK l = true := by
  cases l with
  | nil => simp [chainOK]
  | cons b rest => simp [chainOK, And.comm]

/-- Every interval produced by the aggregator starts no earlier than `L`,
provided the open interval (if any) and all remaining sample times are
bounded below by `L`. -/
theorem aggFrom_start_lb (interval : Int) :
    ∀ (samples : List (Int × Option Nat)) (openI : Option (Int × Nat)) (prev L : Int),
    (∀ q ∈ openI, L ≤ q.1) → (∀ t ∈ samples.map Prod.fst, L ≤ t) →
    ∀ e ∈ aggFrom interval openI prev samples, L ≤ e.1 := by
  intro samples
  induction samples with
  | nil =>
    intro openI prev L hOpen _ e he
    cases openI with
    | none => simp [aggFrom] at he
    | some q =>
      obtain ⟨st, v⟩ := q
      simp only [aggFrom, List.mem_singleton] at he
      subst he
      exact hOpen (st, v) rfl
  | cons s rest ih =>
    intro openI prev L hOpen hTimes e he
    obtain ⟨t, oid⟩ := s
    have hLt : L ≤ t := hTimes t (by simp)
    have hTimes' : ∀ t' ∈ rest.map Prod.fst, L ≤ t' := by
      intro t' ht'
      exact hTimes t' (by simp [ht'])
    cases openI with
    | none =>
      cases oid with
      | none =>
        simp only [aggFrom] at he
        exact ih none t L (by simp) hTimes' e he
      | some w =>
        simp only [aggFrom] at he
        exact ih (some (t, w)) t L (by simpa using hLt) hTimes' e he
    | some q =>
      obtain ⟨st, v⟩ := q
      have hLst : L ≤ st := hOpen (st, v) rfl
      cases oid with
      | none =>
        simp only [aggFrom] at he
        rcases List.mem_cons.mp he with rfl | he'
        · exact hLst
        · exact ih none t L (by simp) hTimes' e he'
      | some w =>
        simp only [aggFrom] at he
        by_cases hvw : v = w
        · rw [if_pos hvw] at he
          exact ih (some (st, v)) t L (by simpa using hLst) hTimes' e he
        · rw [if_neg hvw] at he
          rcases List.mem_cons.mp he with rfl | he'
          · exact hLst
          · exact ih (some (t, w)) t L (by simpa using hLt) hTimes' e he'

/-- Core invariant of the aggregator: with nondecreasing sample times and a
nonnegative sampling interval, the produced row has `start ≤ end` in each
interval and successive intervals do not overlap. -/
theorem aggFrom_wf (interval : Int) (hInt : 0 ≤ interval) :
    ∀ (samples : List (Int × Option Nat)) (openI : Option (Int × Nat)) (prev : Int),
    List.Pairwise (· ≤ ·) (samples.map Prod.fst) →
    (∀ q ∈ openI, q.1 ≤ prev ∧ ∀ t ∈ samples.map Prod.fst, prev ≤ t) →
    (∀ e ∈ aggFrom interval openI prev samples, e.1 ≤ e.2.1)
      ∧ chainOK (aggFrom interval openI prev samples) = true := by
  intro samples
  induction samples with
  | nil =>
    intro openI prev hPw hOpen
    cases openI with
    | none => simp [aggFrom, chainOK]
    | some q =>
      obtain ⟨st, v⟩ := q
      have h1 : st ≤ prev := (hOpen (st, v) rfl).1
      constructor
      · intro e he
        simp only [aggFrom, List.mem_singleton] at he
        subst he
        simpa using le_trans h1 (by omega)
      · simp [aggFrom, chainOK]
  | cons s rest ih =>
    intro openI prev hPw hOpen
    obtain ⟨t, oid⟩ := s
    simp only [List.map_cons, List.pairwise_cons] at hPw
    obtain ⟨hPt, hPw'⟩ := hPw
    cases openI with
    | none =>
      cases oid with
      | none =>
        simp only [aggFrom]
        exact ih none t hPw' (by simp)
      | some w =>
        simp only [aggFrom]
        refine ih (some (t, w)) t hPw' ?_
        intro q hq
        rw [Option.mem_def, Option.some_inj] at hq
        subst hq
        exact ⟨le_refl t, hPt⟩
    | some q =>
      obtain ⟨st, v⟩ := q
      obtain ⟨hStPrev, hPrevT⟩ := hOpen (st, v) rfl
      have hPrevt : prev ≤ t := hPrevT t (by simp)
      have hStT : st ≤ t := le_trans hStPrev hPrevt
      have hPrevRest : ∀ t' ∈ rest.map Prod.fst, prev ≤ t' := by
        intro t' ht'
        exact hPrevT t' (by simp [ht'])
      cases oid with
      | none =>
        simp only [aggFrom]
        have hRec := ih none t hPw' (by simp)
        have hLb : ∀ e ∈ aggFrom interval none t rest, t ≤ e.1 :=
          aggFrom_start_lb interval rest none t t (by simp) hPt
        constructor
        · intro e he
          rcases List.mem_cons.mp he with rfl | he'
          · exact hStT
          · exact hRec.1 e he'
        · refine chainOK_cons.mpr ⟨?_, hRec.2⟩
          intro b hb
          exact hLb b (List.mem_of_mem_head? hb)
      | some w =>
        by_cases hvw : v = w
        · simp only [aggFrom, if_pos hvw]
          refine ih (some (st, v)) t hPw' ?_
          intro q hq
          rw [Option.mem_def, Option.some_inj] at hq
          subst hq
          exact ⟨hStT, hPt⟩
        · simp only [aggFrom, if_neg hvw]
          have hRec := ih (some (t, w)) t hPw' (by
            intro q hq
            rw [Option.mem_def, Option.some_inj] at hq
            subst hq
            exact ⟨le_refl t, hPt⟩)
          have hLb : ∀ e ∈ aggFrom interval (some (t, w)) t rest, t ≤ e.1 :=
            aggFrom_start_lb interval rest (some (t, w)) t t
              (by
                intro q hq
                rw [Option.mem_def, Option.some_inj] at hq
                subst hq
                exact le_refl t) hPt
          constructor
          · intro e he
            rcases List.mem_cons.mp he with rfl | he'
            · exact hStT
            · exact hRec.1 e he'
          · refine chainOK_cons.mpr ⟨?_, hRec.2⟩
            intro b hb
            exact hLb b (List.mem_of_mem_head? hb)

/-- The aggregator's output row is well formed. -/
theorem aggregate_wf (samples : List (Int × Option Nat)) (interval : Int)
    (hInt : 0 ≤ interval) (hPw : List.Pairwise (· ≤ ·) (samples.map Prod.fst)) :
    intervalsWF (aggregate samples interval) = true := by
  have h := aggFrom_wf interval hInt samples none 0 hPw (by simp)
  unfold intervalsWF
  rw [Bool.and_eq_true, List.all_eq_true]
  refine ⟨?_, h.2⟩
  intro e he
  exact decide_eq_true (h.1 e he)

theorem rowInput_times (samples : List (Int × List Nat)) (d : Nat) :
    (rowInput samples d).map Prod.fst = samples.map Prod.fst := by
  induction samples with
  | nil => rfl
  | cons s rest ih => simp [rowInput]

/-- The last interval's end time, if the row is nonempty. -/
def lastStop (r : TimingRow) : Option Int := r.getLast?.map (fun e => e.2.1)

/-- Modelled from the spec (§4.7, the row packer is not under `src/`):
greedily place a marker into the first row whose last placed marker ends
no later than this marker starts, else open a new row at the end. -/
def placeMarker (rows : List TimingRow) (m : Interval) : List TimingRow :=
  match rows with
  | [] => [[m]]
  | r :: rs =>
    match lastStop r with
    | some e => if e ≤ m.1 then (r ++ [m]) :: rs else r :: placeMarker rs m
    | none => [m] :: rs

/-- Modelled from the spec (§4.7): pack the markers, processed in order,
into logical rows. -/
def packRows (markers : List Interval) : List TimingRow :=
  markers.foldl placeMarker []

theorem getLast?_cons_of_ne_nil {a : Interval} {l : TimingRow} (h : l ≠ []) :
    (a :: l).getLast? = l.getLast? := by
  cases l with
  | nil => exact absurd rfl h
  | cons b rest => simp [List.getLast?_cons_cons]

theorem chainOK_append_singleton {r : TimingRow} {m : Interval}
    (hc : chainOK r = true) (hl : ∀ e ∈ lastStop r, e ≤ m.1) :
    chainOK (r ++ [m]) = true := by
  induction r with
  | nil => simp [chainOK]
  | cons a l ih =>
    cases l with
    | nil =>
      have := hl a.2.1 (by simp [lastStop])
      simp [chainOK, this]
    | cons b rest =>
      rw [List.cons_append]
      rw [chainOK_cons]
      rw [chainOK_cons] at hc
      refine ⟨?_, ?_⟩
      · intro x hx
        simp only [List.cons_append, List.head?_cons, Option.mem_def, Option.some_inj] at hx
        subst hx
        exact hc.1 b (by simp)
      · refine ih hc.2 ?_
        intro e he
        refine hl e ?_
        simpa [lastStop, getLast?_cons_of_ne_nil (List.cons_ne_nil b rest)] using he

theorem placeMarker_wf {rows : List TimingRow} {m : Interval}
    (hrows : ∀ r ∈ rows, intervalsWF r = true) (hm : m.1 ≤ m.2.1) :
    ∀ r ∈ placeMarker rows m, intervalsWF r = true := by
  induction rows with
  | nil =>
    intro r hr
    simp only [placeMarker, List.mem_singleton] at hr
    subst hr
    simp [intervalsWF, List.all_eq_true, startLE, chainOK, hm]
  | cons r0 rs ih =>
    intro r hr
    have h0 : intervalsWF r0 = true := hrows r0 (by simp)
    have hrs : ∀ r' ∈ rs, intervalsWF r' = true := fun r' h => hrows r' (by simp [h])
    simp only [placeMarker] at hr
    cases hstop : lastStop r0 with
    | none =>
      rw [hstop] at hr
      rcases List.mem_cons.mp hr with rfl | hr'
      · simp [intervalsWF, List.all_eq_true, startLE, chainOK, hm]
      · exact hrs r hr'
    | some e =>
      rw [hstop] at hr
      have hr2 : r ∈ (if e ≤ m.1 then (r0 ++ [m]) :: rs else r0 :: placeMarker rs m) := hr
      by_cases hle : e ≤ m.1
      · rw [if_pos hle] at hr2
        rcases List.mem_cons.mp hr2 with rfl | hr'
        · unfold intervalsWF at h0 ⊢
          rw [Bool.and_eq_true, List.all_eq_true] at h0 ⊢
          refine ⟨?_, ?_⟩
          · intro x hx
            rcases List.mem_append.mp hx with hx' | hx'
            · exact h0.1 x hx'
            · simp only [List.mem_singleton] at hx'
              subst hx'
              exact decide_eq_true hm
          · refine chainOK_append_singleton h0.2 ?_
            intro e' he'
            rw [hstop, Option.mem_def, Option.some_inj] at he'
            subst he'
            exact hle
        · exact hrs r hr'
      · rw [if_neg hle] at hr2
        rcases List.mem_cons.mp hr2 with rfl | hr'
        · exact h0
        · exact ih hrs r hr'

theorem packRows_aux_wf :
    ∀ (markers : List Interval) (rows : List TimingRow),
    (∀ r ∈ rows, intervalsWF r = true) → (∀ m ∈ markers, m.1 ≤ m.2.1) →
    ∀ r ∈ markers.foldl placeMarker rows, intervalsWF r = true := by
  intro markers
  induction markers with
  | nil => intro rows hrows _; simpa using hrows
  | cons m rest ih =>
    intro rows hrows hm
    rw [List.foldl_cons]
    exact ih (placeMarker rows m) (placeMarker_wf hrows (hm m (by simp)))
      (fun m' h => hm m' (by simp [h]))

/-- C1: for every profile and filter state, every row produced by the
interval-timing aggregator — the stack-chart rows, the leaf-category row
(the same aggregator fed with per-sample leaf categories) and the
marker/network rows of the row packer — satisfies `start[i] ≤ end[i]` and
`end[i] ≤ start[i+1]` for all valid `i`: within one row the intervals are
sorted by start time and pairwise non-overlapping.  Sample times are
nondecreasing and the sampling interval is nonnegative; each marker has
`start ≤ end`. -/
theorem claim1_interval_rows_wellFormed :
    (∀ (samples : List (Int × Option Nat)) (interval : Int), 0 ≤ interval →
      List.Pairwise (· ≤ ·) (samples.map Prod.fst) →
      intervalsWF (aggregate samples interval) = true)
    ∧ (∀ (samples : List (Int × List Nat)) (interval : Int), 0 ≤ interval →
      List.Pairwise (· ≤ ·) (samples.map Prod.fst) →
      ∀ r ∈ getStackTimingByDepth samples interval, intervalsWF r = true)
    ∧ (∀ markers : List Interval, (∀ m ∈ markers, m.1 ≤ m.2.1) →
      ∀ r ∈ packRows markers, intervalsWF r = true) := by
  refine ⟨fun samples interval hInt hPw => aggregate_wf samples interval hInt hPw, ?_, ?_⟩
  · intro samples interval hInt hPw r hr
    simp only [getStackTimingByDepth, List.mem_map] at hr
    obtain ⟨d, _, rfl⟩ := hr
    refine aggregate_wf _ interval hInt ?_
    rw [rowInput_times]
    exact hPw
  · intro markers hm
    exact packRows_aux_wf markers [] (by simp) hm

/-- Witness for C1: the invariant evaluated on the stack-chart fixture row
at depth 2 and on a concrete packed marker row. -/
theorem claim1_witness :
    intervalsWF ((getStackTimingByDepth fixtureSamples 1).getD 2 []) = true
    ∧ intervalsWF ((packRows [(0, 5, 0), (2, 9, 1), (6, 8, 2)]).getD 0 []) = true := by
  constructor
  · have h := claim1_interval_rows_wellFormed.2.1 fixtureSamples 1 (by decide) (by decide)
    exact h ((getStackTimingByDepth fixtureSamples 1).getD 2 []) (by decide)
  · have h := claim1_interval_rows_wellFormed.2.2 [(0, 5, 0), (2, 9, 1), (6, 8, 2)] (by decide)
    exact h ((packRows [(0, 5, 0), (2, 9, 1), (6, 8, 2)]).getD 0 []) (by decide)

/-- The spec's §8 example profile: stacks `A,A,A / B,B,B / C,C,H / D,F,I /
E,G` at times `[0, 1, 2]`, functions coded `A..I = 0..8`, written as one
root-to-leaf path per sample. -/
def exampleSamples : List (Int × List Nat) :=
  [(0, [0, 1, 2, 3, 4]), (1, [0, 1, 2, 5, 6]), (2, [0, 1, 7, 8])]

/-- What the aggregator model actually produces on `exampleSamples` with
sampling interval 1: the row still open at the last sample closes at
`lastTime + interval = 3`, rows that closed earlier keep their closing
time. -/
def exampleExpected : List TimingRow :=
  [[(0, 3, 0)],
   [(0, 3, 1)],
   [(0, 2, 2), (2, 3, 7)],
   [(0, 1, 3), (1, 2, 5), (2, 3, 8)],
   [(0, 1, 4), (1, 2, 6)]]

/-- A row open after the final sample of `front ++ [(t, some w)]` closes at
`t + interval`, the last sample's time plus the sampling interval. -/
theorem aggFrom_last_end (interval : Int) :
    ∀ (front : List (Int × Option Nat)) (t : Int) (w : Nat)
      (openI : Option (Int × Nat)) (prev : Int),
    ∃ st v, (aggFrom interval openI prev (front ++ [(t, some w)])).getLast?
      = some (st, t + interval, v) := by
  intro front
  induction front with
  | nil =>
    intro t w openI prev
    cases openI with
    | none => exact ⟨t, w, by simp [aggFrom]⟩
    | some q =>
      obtain ⟨st, v⟩ := q
      by_cases hvw : v = w
      · subst hvw
        exact ⟨st, v, by simp [aggFrom]⟩
      · exact ⟨t, w, by simp [aggFrom, hvw]⟩
  | cons s front' ih =>
    intro t w openI prev
    obtain ⟨t', oid⟩ := s
    cases openI with
    | none =>
      cases oid with
      | none => simpa only [List.cons_append, aggFrom] using ih t w none t'
      | some w' => simpa only [List.cons_append, aggFrom] using ih t w (some (t', w')) t'
    | some q =>
      obtain ⟨st, v⟩ := q
      cases oid with
      | none =>
        obtain ⟨st', v', h⟩ := ih t w none t'
        refine ⟨st', v', ?_⟩
        simp only [List.cons_append, aggFrom, List.append_eq]
        have hne : aggFrom interval none t' (front' ++ [(t, some w)]) ≠ [] := by
          intro hnil
          rw [hnil] at h
          simp at h
        rw [getLast?_cons_of_ne_nil hne]
        exact h
      | some w' =>
        by_cases hvw : v = w'
        · subst hvw
          simpa only [List.cons_append, aggFrom, if_pos] using ih t w (some (st, v)) t'
        · obtain ⟨st', v', h⟩ := ih t w (some (t', w')) t'
          refine ⟨st', v', ?_⟩
          simp only [List.cons_append, aggFrom, if_neg hvw, List.append_eq]
          have hne : aggFrom interval (some (t', w')) t' (front' ++ [(t, some w)]) ≠ [] := by
            intro hnil
            rw [hnil] at h
            simp at h
          rw [getLast?_cons_of_ne_nil hne]
          exact h

/-- C3 counterexample: on the spec's §8 example, stack-chart row 0 is the
single interval `{start: [0], end: [3]}` — not `{start: [0], end: [2]}` as
the claim states; the end of the last produced interval is the last
sample's time plus the sampling interval, as the repository's own
stack-chart test fixture (last sample at 90 ms, expected end 91) shows. -/
theorem claim3_counterexample :
    (getStackTimingByDepth exampleSamples 1).getD 0 [] = [(0, 3, 0)]
    ∧ (getStackTimingByDepth exampleSamples 1).getD 0 [] ≠ [(0, 2, 0)] := by decide

/-- C3 amended: a row still open after the last sample closes at the last
sample's time plus the sampling interval (the stack chart's minimal
synthetic width); with stacks `A,A,A / B,B,B / C,C,H / D,F,I / E,G` at
times `[0,1,2]` and interval 1, row 0 is one interval `{start: [0], end:
[3]}` for `A`, and row 2 splits into `C` over `[0, 2]` and `H` over
`[2, 3]`. -/
theorem claim3_last_interval_end :
    (∀ (front : List (Int × Option Nat)) (t : Int) (w : Nat) (interval : Int),
      ∃ st v, (aggregate (front ++ [(t, some w)]) interval).getLast?
        = some (st, t + interval, v))
    ∧ getStackTimingByDepth exampleSamples 1 = exampleExpected := by
  exact ⟨fun front t w interval => aggFrom_last_end interval front t w none 0, by decide⟩

mutual

/-- A call node: entity id, self weight (number of samples whose leaf it
is), children.  Mutually defined with `CallForest`, the arena-free
rendition of the call-node forest. -/
inductive CallTree : Type where
  | node (id : Nat) (self : Nat) (children : CallForest)

/-- An ordered forest of call nodes (order of first appearance in the
samples). -/
inductive CallForest : Type where
  | nil
  | cons (t : CallTree) (ts : CallForest)

end

/-- Aggregate weight (self + descendants) of every tree of a forest. -/
def totalList : CallForest → Nat
  | .nil => 0
  | .cons (.node _ s ch) ts => (s + totalList ch) + totalList ts

/-- Aggregate weight (self + descendants) of a subtree — the quantity the
flame graph's horizontal spans are proportional to. -/
def total : CallTree → Nat
  | .node _ s ch => s + totalList ch

/-- Build the single-branch tree for the tail of a sample's call path;
the leaf gets self weight 1. -/
def mkBranch (p : Nat) : List Nat → CallTree
  | [] => .node p 1 .nil
  | q :: rest => .node p 0 (.cons (mkBranch q rest) .nil)

/-- Self weight and children of the root with id `p`, if present. -/
def findRoot (p : Nat) : CallForest → Option (Nat × CallForest)
  | .nil => none
  | .cons (.node i s ch) ts => if i = p then some (s, ch) else findRoot p ts

/-- Replace the root with id `p` by `node p s' ch'`, keeping the order. -/
def replaceRoot (p : Nat) (s' : Nat) (ch' : CallForest) : CallForest → CallForest
  | .nil => .nil
  | .cons (.node i s ch) ts =>
      if i = p then .cons (.node i s' ch') ts
      else .cons (.node i s ch) (replaceRoot p s' ch' ts)

/-- Append a tree at the end of a forest (new call nodes are appended in
order of first appearance). -/
def appendTree : CallForest → CallTree → CallForest
  | .nil, t => .cons t .nil
  | .cons u us, t => .cons u (appendTree us t)

/-- Modelled from the spec (§4.1, the call-node tree builder is not under
`src/`): merge one sample's call path into the forest, adding 1 to the
self weight of the leaf's node and appending new nodes in first-appearance
order. -/
def insertPath (forest : CallForest) : List Nat → CallForest
  | [] => forest
  | p :: rest =>
      match findRoot p forest with
      | some (s, ch) =>
          replaceRoot p (if rest.isEmpty then s + 1 else s) (insertPath ch rest) forest
      | none => appendTree forest (mkBranch p rest)

/-- Build the call-node forest from the samples' call paths (a null-stack
sample contributes the empty path, which is a no-op). -/
def buildForest (samples : List (List Nat)) : CallForest :=
  samples.foldl insertPath .nil

/-- Modelled from the spec (§4.5, the flame-graph builder is not under
`src/`): depth-first layout.  Each node of the forest occupies
`[start, start + total)`, its children are laid out contiguously from its
own start in sibling order, and the emitted entries are `(id, depth,
start, end)`. -/
def layoutList : CallForest → Nat → Nat → List (Nat × Nat × Nat × Nat)
  | .nil, _, _ => []
  | .cons (.node i s ch) ts, horiz, depth =>
      (i, depth, horiz, horiz + (s + totalList ch)) ::
        (layoutList ch horiz (depth + 1) ++ layoutList ts (horiz + (s + totalList ch)) depth)

/-- Number of depth levels of a forest. -/
def forestDepth : CallForest → Nat
  | .nil => 0
  | .cons (.node _ _ ch) ts => max (1 + forestDepth ch) (forestDepth ts)

/-- The flame-graph row at depth `d`: the `(callNode, start, end)` spans of
every node at that depth, in layout order. -/
def flameRow (f : CallForest) (d : Nat) : List (Nat × Nat × Nat) :=
  (layoutList f 0 0).filterMap
    (fun e => if e.2.1 = d then some (e.1, e.2.2.1, e.2.2.2) else none)

/-- The flame-graph timing: one row per depth. -/
def getFlameGraphTiming (f : CallForest) : List (List (Nat × Nat × Nat)) :=
  (List.range (forestDepth f)).map (flameRow f)

/-- Insert a tree into a forest sorted by total weight descending (stable:
an equal-weight tree stays behind existing ones). -/
def insertDesc (t : CallTree) : CallForest → CallForest
  | .nil => .cons t .nil
  | .cons u us => if total u < total t then .cons t (.cons u us) else .cons u (insertDesc t us)

/-- Reorder every sibling list of the forest by total subtree weight
descending — the sibling order the claim asserts. -/
def sortForest : CallForest → CallForest
  | .nil => .nil
  | .cons (.node i s ch) ts => insertDesc (.node i s (sortForest ch)) (sortForest ts)

/-- The profile of the `getFlameGraphTiming` test `weights heavier samples
to the left` (`actions.test.js` lines 212–225): samples `A D D D / B E F F
/ C _ _ G`, functions coded `A..G = 0..6`, one call path per sample. -/
def heavierSamples : List (List Nat) :=
  [[0, 1, 2], [3, 4], [3, 5], [3, 5, 6]]

/-- The output that test expects: `A (0:1) | D (1:4)`, `B (0:1) | E (1:2) |
F (2:4)`, `C (0:1) | G (2:3)`. -/
def heavierExpected : List (List (Nat × Nat × Nat)) :=
  [[(0, 0, 1), (3, 1, 4)],
   [(1, 0, 1), (4, 1, 2), (5, 2, 4)],
   [(2, 0, 1), (6, 2, 3)]]

/-- The profile of the `computes a basic example` flame-graph test:
samples `A A A / B B B / C C H / D F I / E G`, functions coded
`A..I = 0..8`. -/
def basicSamples : List (List Nat) :=
  [[0, 1, 2, 3, 4], [0, 1, 2, 5, 6], [0, 1, 7, 8]]

/-- The output that test expects: `A (0:3)`, `B (0:3)`, `C (0:2) | H
(2:3)`, `D (0:1) | F (1:2) | I (2:3)`, `E (0:1) | G (1:2)`. -/
def basicExpected : List (List (Nat × Nat × Nat)) :=
  [[(0, 0, 3)],
   [(1, 0, 3)],
   [(2, 0, 2), (7, 2, 3)],
   [(3, 0, 1), (5, 1, 2), (8, 2, 3)],
   [(4, 0, 1), (6, 1, 2)]]

/-- C4 counterexample: on the repository's own `weights heavier samples to
the left` fixture, a layout whose siblings are ordered by total subtree
weight descending puts `D` (weight 3) before `A` (weight 1) and yields top
row `D (0:3) | A (3:4)`, while the repository's test expects `A (0:1) | D
(1:4)` — the first-appearance order, which the unsorted layout
reproduces.  The sibling order is therefore not total-weight-descending. -/
theorem claim4_counterexample :
    flameRow (sortForest (buildForest heavierSamples)) 0 = [(3, 0, 3), (0, 3, 4)]
    ∧ flameRow (buildForest heavierSamples) 0 = [(0, 0, 1), (3, 1, 4)]
    ∧ ([(3, 0, 3), (0, 3, 4)] : List (Nat × Nat × Nat)) ≠ [(0, 0, 1), (3, 1, 4)] := by
  decide

/-- C4 amended: the flame-graph builder lays the call-node forest out
depth-first with siblings in call-node-table order (order of first
appearance in the samples; in these fixtures this coincides with
alphabetical function order), not by total weight descending; each node's
span length is the aggregate weight (self + descendants) of its subtree
and children are laid out contiguously from the parent's start in that
same order.  This reproduces, row for row, the expected output of both
flame-graph tests of the repository. -/
theorem claim4_flameGraph_layout :
    getFlameGraphTiming (buildForest heavierSamples) = heavierExpected
    ∧ getFlameGraphTiming (buildForest basicSamples) = basicExpected := by decide

/-- Modelled from the spec (§6; `utils/bisect` is not under `src/`):
`bisectionRight` returns the leftmost index whose element is greater than
the target — the length of the longest prefix of elements `≤ x`. -/
def bisectionRight (arr : List Int) (x : Int) : Nat :=
  (arr.takeWhile (fun a => decide (a ≤ x))).length

/-- Embedded from `NetworkCanvas._hitTest` (`src/unnamed/part_000`, lines
85–103), the per-row body of its loop: `indexInRow = bisectionRight(start,
time) - 1`; skip the row when `indexInRow < 0` or when `end[indexInRow] <
time`, otherwise the candidate is `(start[indexInRow],
index[indexInRow])`. -/
def rowCandidate (r : TimingRow) (time : Int) : Option (Int × Nat) :=
  if bisectionRight (timingStart r) time = 0 then none
  else
    if (r.getD (bisectionRight (timingStart r) time - 1) (0, 0, 0)).2.1 < time then none
    else
      some ((r.getD (bisectionRight (timingStart r) time - 1) (0, 0, 0)).1,
        (r.getD (bisectionRight (timingStart r) time - 1) (0, 0, 0)).2.2)

/-- Embedded from `NetworkCanvas._hitTest`: keep the candidate whose start
is strictly greater than the best so far (`closestMarkerStart` starts at
`-Infinity`, so the first candidate always wins). -/
def pickCloser (acc cand : Option (Int × Nat)) : Option (Int × Nat) :=
  match cand with
  | none => acc
  | some c =>
      match acc with
      | none => some c
      | some a => if a.1 < c.1 then some c else acc

/-- Every `step`-th element of a list, starting once the countdown `k`
reaches 0 (helper for the loop index sequence `row, row + step, …`). -/
def everyNthAux (step : Nat) : List TimingRow → Nat → List TimingRow
  | [], _ => []
  | r :: rest, 0 => r :: everyNthAux step rest (step - 1)
  | _ :: rest, k + 1 => everyNthAux step rest k

/-- The rows the hit-test loop `for (let i = row; i < networkTiming.length;
i += TRACK_NETWORK_ROW_REPEAT)` visits, in visit order. -/
def consultedRows (networkTiming : List TimingRow) (row step : Nat) : List TimingRow :=
  everyNthAux step (networkTiming.drop row) 0

/-- The hit-test loop's accumulator after consulting `rows`. -/
def bestOf (rows : List TimingRow) (time : Int) (acc : Option (Int × Nat)) :
    Option (Int × Nat) :=
  rows.foldl (fun a r => pickCloser a (rowCandidate r time)) acc

/-- Embedded from `NetworkCanvas._hitTest`: consult rows `row, row + step,
…`, keep the accepted marker with the greatest start, return its marker
index (or null). -/
def hitTest (networkTiming : List TimingRow) (row step : Nat) (time : Int) : Option Nat :=
  (bestOf (consultedRows networkTiming row step) time none).map (fun c => c.2)

/-- The marker `e` contains the query time: `start ≤ time ≤ end`. -/
def covers (e : Interval) (time : Int) : Bool :=
  decide (e.1 ≤ time) && decide (time ≤ e.2.1)

/-- Embedded from `NetworkCanvas.drawCanvas` (lines 159–160): the vertical
centre of logical row `rowIndex`, `(rowIndex % TRACK_NETWORK_ROW_REPEAT) *
rowHeight + rowHeight * 0.5`. -/
def rowY (rowIndex stepR : Nat) (rowHeight : ℚ) : ℚ :=
  ((rowIndex % stepR : Nat) : ℚ) * rowHeight + rowHeight * (1 / 2)

/-- Embedded from `NetworkCanvas._hitTest` (line 69): the visual lane under
a pointer, `Math.floor(y / TRACK_NETWORK_ROW_HEIGHT)`. -/
def hitTestRow (y rowHeight : ℚ) : ℤ := Int.floor (y / rowHeight)

theorem timingStart_length (r : TimingRow) : (timingStart r).length = r.length := by
  simp [timingStart]

theorem timingStart_getD (r : TimingRow) (k : Nat) :
    (timingStart r).getD k 0 = (r.getD k (0, 0, 0)).1 := by
  induction r generalizing k with
  | nil => simp [timingStart, List.getD]
  | cons a l ih =>
    cases k with
    | zero => simp [timingStart]
    | succ k' => simpa [timingStart] using ih k'

theorem timingEnd_getD (r : TimingRow) (k : Nat) :
    (timingEnd r).getD k 0 = (r.getD k (0, 0, 0)).2.1 := by
  induction r generalizing k with
  | nil => simp [timingEnd, List.getD]
  | cons a l ih =>
    cases k with
    | zero => simp [timingEnd]
    | succ k' => simpa [timingEnd] using ih k'

theorem timingIndex_getD (r : TimingRow) (k : Nat) :
    (timingIndex r).getD k 0 = (r.getD k (0, 0, 0)).2.2 := by
  induction r generalizing k with
  | nil => simp [timingIndex, List.getD]
  | cons a l ih =>
    cases k with
    | zero => simp [timingIndex]
    | succ k' => simpa [timingIndex] using ih k'

theorem bisectionRight_cons_pos {a x : Int} (l : List Int) (h : a ≤ x) :
    bisectionRight (a :: l) x = bisectionRight l x + 1 := by
  simp [bisectionRight, List.takeWhile_cons, h]

theorem bisectionRight_cons_neg {a x : Int} (l : List Int) (h : ¬ a ≤ x) :
    bisectionRight (a :: l) x = 0 := by
  simp [bisectionRight, List.takeWhile_cons, h]

/-- The function bisectionRight never exceeds the array length (with a positive
result, `indexInRow = bisectionRight - 1` is always in bounds). -/
theorem bisectionRight_le (arr : List Int) (x : Int) :
    bisectionRight arr x ≤ arr.length := by
  induction arr with
  | nil => simp [bisectionRight]
  | cons a l ih =>
    by_cases h : a ≤ x
    · rw [bisectionRight_cons_pos l h]
      simpa using ih
    · rw [bisectionRight_cons_neg l h]
      simp

/-- On a sorted array, `bisectionRight` is the count of elements `≤ x`:
position `j` holds an element `≤ x` exactly when `j` lies left of the
bisection point, so `bisectionRight - 1` is the greatest index whose
element is `≤ x`. -/
theorem bisectionRight_iff (x : Int) :
    ∀ (arr : List Int), List.Pairwise (· ≤ ·) arr →
    ∀ j, j < arr.length → (arr.getD j 0 ≤ x ↔ j < bisectionRight arr x) := by
  intro arr
  induction arr with
  | nil =>
    intro _ j hj
    simp at hj
  | cons a l ih =>
    intro hpw j hj
    rw [List.pairwise_cons] at hpw
    by_cases ha : a ≤ x
    · rw [bisectionRight_cons_pos l ha]
      cases j with
      | zero =>
        rw [List.getD_cons_zero]
        exact iff_of_true ha (by omega)
      | succ j' =>
        rw [List.getD_cons_succ]
        have hj' : j' < l.length := by
          simp only [List.length_cons] at hj
          omega
        rw [ih hpw.2 j' hj']
        omega
    · rw [bisectionRight_cons_neg l ha]
      cases j with
      | zero =>
        rw [List.getD_cons_zero]
        exact iff_of_false ha (by omega)
      | succ j' =>
        rw [List.getD_cons_succ]
        refine iff_of_false ?_ (by omega)
        intro hle
        have hj' : j' < l.length := by
          simp only [List.length_cons] at hj
          omega
        have hmem : l.getD j' 0 ∈ l := by
          rw [List.getD_eq_getElem l 0 hj']
          exact List.getElem_mem hj'
        exact ha (le_trans (hpw.1 _ hmem) hle)

theorem intervalsWF_all {r : TimingRow} (h : intervalsWF r = true) :
    ∀ e ∈ r, e.1 ≤ e.2.1 := by
  unfold intervalsWF at h
  rw [Bool.and_eq_true, List.all_eq_true] at h
  intro e he
  simpa [startLE] using h.1 e he

theorem intervalsWF_tail {a : Interval} {l : TimingRow}
    (h : intervalsWF (a :: l) = true) : intervalsWF l = true := by
  unfold intervalsWF at h ⊢
  rw [Bool.and_eq_true, List.all_eq_true] at h ⊢
  obtain ⟨hall, hchain⟩ := h
  rw [chainOK_cons] at hchain
  exact ⟨fun e he => hall e (by simp [he]), hchain.2⟩

/-- A well-formed row satisfies `end[i] ≤ start[j]` for every pair of
positions `i < j`. -/
theorem intervalsWF_pairwise_endStart :
    ∀ (r : TimingRow), intervalsWF r = true →
    List.Pairwise (fun a b : Interval => a.2.1 ≤ b.1) r := by
  intro r
  induction r with
  | nil => intro _; exact List.Pairwise.nil
  | cons a l ih =>
    intro h
    have htail : intervalsWF l = true := intervalsWF_tail h
    have h' := h
    unfold intervalsWF at h'
    rw [Bool.and_eq_true] at h'
    have hchain := h'.2
    rw [chainOK_cons] at hchain
    refine List.pairwise_cons.mpr ⟨?_, ih htail⟩
    intro b hb
    cases l with
    | nil => simp at hb
    | cons c t =>
      have hac : a.2.1 ≤ c.1 := hchain.1 c rfl
      rcases List.mem_cons.mp hb with rfl | hbt
      · exact hac
      · have hcLe : c.1 ≤ c.2.1 := intervalsWF_all htail c (by simp)
        have hct := (List.pairwise_cons.mp (ih htail)).1 b hbt
        exact le_trans hac (le_trans hcLe hct)

/-- A well-formed row's start times are sorted. -/
theorem intervalsWF_starts_pairwise (r : TimingRow) (h : intervalsWF r = true) :
    List.Pairwise (· ≤ ·) (timingStart r) := by
  unfold timingStart
  rw [List.pairwise_map]
  exact List.Pairwise.imp_of_mem
    (fun ha _ hab => le_trans (intervalsWF_all h _ ha) hab)
    (intervalsWF_pairwise_endStart r h)

theorem pickCloser_eq_none {a c : Option (Int × Nat)} :
    pickCloser a c = none ↔ a = none ∧ c = none := by
  cases c with
  | none => simp [pickCloser]
  | some c' =>
    cases a with
    | none => simp [pickCloser]
    | some a' =>
      simp only [pickCloser]
      by_cases h : a'.1 < c'.1 <;> simp [h]

theorem pickCloser_eq_some {a c : Option (Int × Nat)} {x : Int × Nat}
    (h : pickCloser a c = some x) :
    (a = some x ∨ c = some x)
    ∧ (∀ y, a = some y → y.1 ≤ x.1)
    ∧ (∀ d, c = some d → d.1 ≤ x.1) := by
  cases c with
  | none =>
    simp only [pickCloser] at h
    refine ⟨Or.inl h, ?_, ?_⟩
    · intro y hy
      rw [h] at hy
      obtain rfl := Option.some_inj.mp hy
      exact le_refl _
    · intro d hd
      exact absurd hd (by simp)
  | some c' =>
    cases a with
    | none =>
      simp only [pickCloser] at h
      obtain rfl := Option.some_inj.mp h
      refine ⟨Or.inr rfl, ?_, ?_⟩
      · intro y hy
        exact absurd hy (by simp)
      · intro d hd
        obtain rfl := Option.some_inj.mp hd
        exact le_refl _
    | some a' =>
      simp only [pickCloser] at h
      by_cases hlt : a'.1 < c'.1
      · rw [if_pos hlt] at h
        obtain rfl := Option.some_inj.mp h
        refine ⟨Or.inr rfl, ?_, ?_⟩
        · intro y hy
          obtain rfl := Option.some_inj.mp hy
          exact le_of_lt hlt
        · intro d hd
          obtain rfl := Option.some_inj.mp hd
          exact le_refl _
      · rw [if_neg hlt] at h
        obtain rfl := Option.some_inj.mp h
        refine ⟨Or.inl rfl, ?_, ?_⟩
        · intro y hy
          obtain rfl := Option.some_inj.mp hy
          exact le_refl _
        · intro d hd
          obtain rfl := Option.some_inj.mp hd
          exact le_of_not_lt hlt

theorem pickCloser_isSome_left {a c : Option (Int × Nat)} (h : a.isSome = true) :
    (pickCloser a c).isSome = true := by
  cases a with
  | none => simp at h
  | some a' =>
    cases c with
    | none => simp [pickCloser]
    | some c' =>
      simp only [pickCloser]
      by_cases hlt : a'.1 < c'.1 <;> simp [hlt]

theorem pickCloser_isSome_right {a c : Option (Int × Nat)} (h : c.isSome = true) :
    (pickCloser a c).isSome = true := by
  cases c with
  | none => simp at h
  | some c' =>
    cases a with
    | none => simp [pickCloser]
    | some a' =>
      simp only [pickCloser]
      by_cases hlt : a'.1 < c'.1 <;> simp [hlt]

theorem bestOf_cons (r : TimingRow) (rows : List TimingRow) (time : Int)
    (acc : Option (Int × Nat)) :
    bestOf (r :: rows) time acc = bestOf rows time (pickCloser acc (rowCandidate r time)) := rfl

/-- The hit-test loop's accumulator: it ends `none` exactly when it started
`none` and no consulted row produced a candidate, and when it ends `some x`
then `x` came from the start value or from some row and its start is
maximal among the start value and all rows' candidates. -/
theorem bestOf_spec (time : Int) :
    ∀ (rows : List TimingRow) (acc : Option (Int × Nat)),
    (bestOf rows time acc = none ↔ acc = none ∧ ∀ r ∈ rows, rowCandidate r time = none)
    ∧ (∀ x, bestOf rows time acc = some x →
        (acc = some x ∨ ∃ r ∈ rows, rowCandidate r time = some x)
        ∧ (∀ y, acc = some y → y.1 ≤ x.1)
        ∧ (∀ r ∈ rows, ∀ d, rowCandidate r time = some d → d.1 ≤ x.1)) := by
  intro rows
  induction rows with
  | nil =>
    intro acc
    constructor
    · simp [bestOf]
    · intro x hx
      simp only [bestOf, List.foldl_nil] at hx
      refine ⟨Or.inl hx, ?_, by simp⟩
      intro y hy
      rw [hx] at hy
      obtain rfl := Option.some_inj.mp hy
      exact le_refl _
  | cons r rows' ih =>
    intro acc
    have hrec := ih (pickCloser acc (rowCandidate r time))
    constructor
    · rw [bestOf_cons, hrec.1]
      constructor
      · rintro ⟨h1, h2⟩
        obtain ⟨ha, hc⟩ := pickCloser_eq_none.mp h1
        refine ⟨ha, ?_⟩
        intro r' hr'
        rcases List.mem_cons.mp hr' with rfl | hm
        · exact hc
        · exact h2 r' hm
      · rintro ⟨ha, hall⟩
        exact ⟨pickCloser_eq_none.mpr ⟨ha, hall r (by simp)⟩,
          fun r' hr' => hall r' (by simp [hr'])⟩
    · intro x hx
      rw [bestOf_cons] at hx
      obtain ⟨horig, hbnd, hrows⟩ := hrec.2 x hx
      refine ⟨?_, ?_, ?_⟩
      · rcases horig with hacc' | ⟨r', hr', hcand⟩
        · rcases (pickCloser_eq_some hacc').1 with h | h
          · exact Or.inl h
          · exact Or.inr ⟨r, by simp, h⟩
        · exact Or.inr ⟨r', by simp [hr'], hcand⟩
      · intro y hy
        have hsome : (pickCloser acc (rowCandidate r time)).isSome = true :=
          pickCloser_isSome_left (by simp [hy])
        obtain ⟨z, hz⟩ := Option.isSome_iff_exists.mp hsome
        exact le_trans ((pickCloser_eq_some hz).2.1 y hy) (hbnd z hz)
      · intro r' hr' d hd
        rcases List.mem_cons.mp hr' with rfl | hmem
        · have hsome : (pickCloser acc (rowCandidate r' time)).isSome = true :=
            pickCloser_isSome_right (by simp [hd])
          obtain ⟨z, hz⟩ := Option.isSome_iff_exists.mp hsome
          exact le_trans ((pickCloser_eq_some hz).2.2 d hd) (hbnd z hz)
        · exact hrows r' hmem d hd

/-- On a well-formed row, the hit-test row body finds a candidate exactly
when some interval of the row contains the query time, and the candidate
it returns is a containing interval whose start is maximal among all
entries with start `≤ time`. -/
theorem rowCandidate_spec (r : TimingRow) (time : Int) (hwf : intervalsWF r = true) :
    ((rowCandidate r time).isSome = true ↔ ∃ e ∈ r, covers e time = true)
    ∧ (∀ s m, rowCandidate r time = some (s, m) →
        ∃ e ∈ r, e.1 = s ∧ e.2.2 = m ∧ covers e time = true
          ∧ ∀ e' ∈ r, e'.1 ≤ time → e'.1 ≤ s) := by
  have hsorted := intervalsWF_starts_pairwise r hwf
  have hlen : (timingStart r).length = r.length := timingStart_length r
  have hbisle : bisectionRight (timingStart r) time ≤ r.length := by
    rw [← hlen]
    exact bisectionRight_le _ _
  have hIff : ∀ k, k < r.length →
      ((r.getD k (0, 0, 0)).1 ≤ time ↔ k < bisectionRight (timingStart r) time) := by
    intro k hk
    rw [← timingStart_getD]
    exact bisectionRight_iff time (timingStart r) hsorted k (by rw [hlen]; exact hk)
  have hstartsPW : List.Pairwise (fun a b : Interval => a.1 ≤ b.1) r :=
    List.pairwise_map.mp (by unfold timingStart at hsorted; exact hsorted)
  have hendPW := intervalsWF_pairwise_endStart r hwf
  by_cases hj0 : bisectionRight (timingStart r) time = 0
  · have hcand : rowCandidate r time = none := by
      unfold rowCandidate
      rw [if_pos hj0]
    constructor
    · rw [hcand]
      simp only [Option.isSome_none, Bool.false_eq_true, false_iff]
      rintro ⟨e, he, hcov⟩
      rw [covers, Bool.and_eq_true, decide_eq_true_eq, decide_eq_true_eq] at hcov
      obtain ⟨i, hi, hie⟩ := List.getElem_of_mem he
      have h1 : (r.getD i (0, 0, 0)).1 ≤ time := by
        rw [List.getD_eq_getElem r (0, 0, 0) hi, hie]
        exact hcov.1
      have := (hIff i hi).mp h1
      omega
    · intro s m hsm
      rw [hcand] at hsm
      exact absurd hsm (by simp)
  · have hj1 : bisectionRight (timingStart r) time - 1 < r.length := by omega
    have he0start : (r.getD (bisectionRight (timingStart r) time - 1) (0, 0, 0)).1 ≤ time :=
      (hIff _ hj1).mpr (by omega)
    have he0mem : r.getD (bisectionRight (timingStart r) time - 1) (0, 0, 0) ∈ r := by
      rw [List.getD_eq_getElem r (0, 0, 0) hj1]
      exact List.getElem_mem hj1
    by_cases hend : (r.getD (bisectionRight (timingStart r) time - 1) (0, 0, 0)).2.1 < time
    · have hcand : rowCandidate r time = none := by
        unfold rowCandidate
        rw [if_neg hj0, if_pos hend]
      constructor
      · rw [hcand]
        simp only [Option.isSome_none, Bool.false_eq_true, false_iff]
        rintro ⟨e, he, hcov⟩
        rw [covers, Bool.and_eq_true, decide_eq_true_eq, decide_eq_true_eq] at hcov
        obtain ⟨i, hi, hie⟩ := List.getElem_of_mem he
        have h1 : (r.getD i (0, 0, 0)).1 ≤ time := by
          rw [List.getD_eq_getElem r (0, 0, 0) hi, hie]
          exact hcov.1
        have hij : i < bisectionRight (timingStart r) time := (hIff i hi).mp h1
        by_cases hieq : i = bisectionRight (timingStart r) time - 1
        · subst hieq
          rw [List.getD_eq_getElem r (0, 0, 0) hi, hie] at hend
          omega
        · have hilt : i < bisectionRight (timingStart r) time - 1 := by omega
          have hx := List.pairwise_iff_getElem.mp hendPW i
            (bisectionRight (timingStart r) time - 1) hi hj1 hilt
          rw [hie] at hx
          have he0LE : (r.getD (bisectionRight (timingStart r) time - 1) (0, 0, 0)).1
              ≤ (r.getD (bisectionRight (timingStart r) time - 1) (0, 0, 0)).2.1 :=
            intervalsWF_all hwf _ he0mem
          rw [List.getD_eq_getElem r (0, 0, 0) hj1] at he0LE hend
          omega
      · intro s m hsm
        rw [hcand] at hsm
        exact absurd hsm (by simp)
    · have hcand : rowCandidate r time =
          some ((r.getD (bisectionRight (timingStart r) time - 1) (0, 0, 0)).1,
            (r.getD (bisectionRight (timingStart r) time - 1) (0, 0, 0)).2.2) := by
        unfold rowCandidate
        rw [if_neg hj0, if_neg hend]
      have hcov0 : covers (r.getD (bisectionRight (timingStart r) time - 1) (0, 0, 0)) time
          = true := by
        rw [covers, Bool.and_eq_true]
        exact ⟨decide_eq_true he0start, decide_eq_true (le_of_not_lt hend)⟩
      constructor
      · rw [hcand]
        simp only [Option.isSome_some, true_iff]
        exact ⟨_, he0mem, hcov0⟩
      · intro s m hsm
        rw [hcand] at hsm
        obtain ⟨hs, hm⟩ := Prod.mk.injEq _ _ _ _ ▸ Option.some_inj.mp hsm
        refine ⟨r.getD (bisectionRight (timingStart r) time - 1) (0, 0, 0), he0mem,
          hs, hm, hcov0, ?_⟩
        intro e' he' hle
        obtain ⟨i, hi, hie⟩ := List.getElem_of_mem he'
        have h1 : (r.getD i (0, 0, 0)).1 ≤ time := by
          rw [List.getD_eq_getElem r (0, 0, 0) hi, hie]
          exact hle
        have hij : i < bisectionRight (timingStart r) time := (hIff i hi).mp h1
        rw [← hs]
        by_cases hieq : i = bisectionRight (timingStart r) time - 1
        · subst hieq
          rw [List.getD_eq_getElem r (0, 0, 0) hi, hie]
        · have hilt : i < bisectionRight (timingStart r) time - 1 := by omega
          have hx := List.pairwise_iff_getElem.mp hstartsPW i
            (bisectionRight (timingStart r) time - 1) hi hj1 hilt
          rw [hie, ← List.getD_eq_getElem r (0, 0, 0) hj1] at hx
          exact hx

theorem covers_le {e : Interval} {t : Int} (h : covers e t = true) :
    e.1 ≤ t ∧ t ≤ e.2.1 := by
  rw [covers, Bool.and_eq_true, decide_eq_true_eq, decide_eq_true_eq] at h
  exact h

theorem everyNthAux_getElem? (step : Nat) (hstep : 1 ≤ step) :
    ∀ (l : List TimingRow) (j k : Nat),
    (everyNthAux step l j)[k]? = l[j + k * step]? := by
  intro l
  induction l with
  | nil =>
    intro j k
    simp [everyNthAux]
  | cons r rest ih =>
    intro j k
    cases j with
    | zero =>
      cases k with
      | zero => simp [everyNthAux]
      | succ k' =>
        simp only [everyNthAux]
        rw [List.getElem?_cons_succ, ih (step - 1) k']
        have h1 : 0 + (k' + 1) * step = (step - 1 + k' * step) + 1 := by
          rw [Nat.succ_mul]
          omega
        rw [h1, List.getElem?_cons_succ]
    | succ j' =>
      simp only [everyNthAux]
      rw [ih j' k]
      have h1 : j' + 1 + k * step = (j' + k * step) + 1 := by omega
      rw [h1, List.getElem?_cons_succ]

/-- The `k`-th row the hit-test loop consults is the row at logical index
`row + k * step` of the network timing. -/
theorem consultedRows_getElem? (networkTiming : List TimingRow) (row step k : Nat)
    (hstep : 1 ≤ step) :
    (consultedRows networkTiming row step)[k]? = networkTiming[row + k * step]? := by
  unfold consultedRows
  rw [everyNthAux_getElem? step hstep (networkTiming.drop row) 0 k,
    List.getElem?_drop]
  congr 1
  omega

/-- C2: for every timing row whose start sequence is sorted ascending and
every query time, the hit test computes `indexInRow = bisectionRight(start,
time) − 1`, the greatest start `≤ time` (a position holds a start `≤ time`
exactly when it lies left of the bisection point); the row's marker is
accepted iff `indexInRow ≥ 0` (`bisectionRight ≥ 1`) and `end[indexInRow] ≥
time`, and the accepted marker is the one at `indexInRow`; when no
consulted row yields a candidate, the hit test returns null. -/
theorem claim2_hitTest_contract (r : TimingRow) (time : Int)
    (hsorted : List.Pairwise (· ≤ ·) (timingStart r)) :
    (∀ j, j < r.length →
      ((timingStart r).getD j 0 ≤ time ↔ j < bisectionRight (timingStart r) time))
    ∧ ((rowCandidate r time).isSome = true
        ↔ 1 ≤ bisectionRight (timingStart r) time
          ∧ time ≤ (timingEnd r).getD (bisectionRight (timingStart r) time - 1) 0)
    ∧ (∀ s m, rowCandidate r time = some (s, m) →
        s = (timingStart r).getD (bisectionRight (timingStart r) time - 1) 0
        ∧ m = (timingIndex r).getD (bisectionRight (timingStart r) time - 1) 0)
    ∧ (∀ (networkTiming : List TimingRow) (row step : Nat),
        (∀ r' ∈ consultedRows networkTiming row step, rowCandidate r' time = none) →
        hitTest networkTiming row step time = none) := by
  refine ⟨?_, ?_, ?_, ?_⟩
  · intro j hj
    exact bisectionRight_iff time (timingStart r) hsorted j
      (by rw [timingStart_length]; exact hj)
  · unfold rowCandidate
    by_cases hj0 : bisectionRight (timingStart r) time = 0
    · rw [if_pos hj0]
      simp [hj0]
    · rw [if_neg hj0, timingEnd_getD]
      by_cases hend : (r.getD (bisectionRight (timingStart r) time - 1) (0, 0, 0)).2.1 < time
      · rw [if_pos hend]
        simp only [Option.isSome_none, Bool.false_eq_true, false_iff]
        rintro ⟨-, h2⟩
        omega
      · rw [if_neg hend]
        simp only [Option.isSome_some, true_iff]
        exact ⟨by omega, le_of_not_lt hend⟩
  · intro s m hsm
    unfold rowCandidate at hsm
    by_cases hj0 : bisectionRight (timingStart r) time = 0
    · rw [if_pos hj0] at hsm
      exact absurd hsm (by simp)
    · rw [if_neg hj0] at hsm
      by_cases hend : (r.getD (bisectionRight (timingStart r) time - 1) (0, 0, 0)).2.1 < time
      · rw [if_pos hend] at hsm
        exact absurd hsm (by simp)
      · rw [if_neg hend] at hsm
        obtain ⟨hs, hm⟩ := Prod.mk.injEq _ _ _ _ ▸ Option.some_inj.mp hsm
        rw [timingStart_getD, timingIndex_getD]
        exact ⟨hs.symm, hm.symm⟩
  · intro networkTiming row step hall
    unfold hitTest
    rw [(bestOf_spec time (consultedRows networkTiming row step) none).1.mpr ⟨rfl, hall⟩]
    rfl

/-- Witness for C2: a row whose single marker ends at 5 is not a hit for
query time 20, and the hit test over it returns null. -/
theorem claim2_witness : hitTest [[(0, 5, 3)]] 0 7 20 = none :=
  (claim2_hitTest_contract [(0, 5, 3)] 20 (by decide)).2.2.2 [[(0, 5, 3)]] 0 7 (by decide)

/-- C9: when several consulted rows contain a marker covering the query
time, the hit test returns the index of a covering marker whose start is
greatest among all covering markers of all consulted rows, and it returns
null exactly when no consulted row contains a covering marker. -/
theorem claim9_hitTest_returns_closest (networkTiming : List TimingRow) (row step : Nat)
    (time : Int)
    (hwf : ∀ r ∈ consultedRows networkTiming row step, intervalsWF r = true) :
    (hitTest networkTiming row step time = none
      ↔ ∀ r ∈ consultedRows networkTiming row step, ∀ e ∈ r, covers e time = false)
    ∧ (∀ m, hitTest networkTiming row step time = some m →
        ∃ r ∈ consultedRows networkTiming row step, ∃ e ∈ r,
          e.2.2 = m ∧ covers e time = true
          ∧ ∀ r' ∈ consultedRows networkTiming row step, ∀ e' ∈ r',
              covers e' time = true → e'.1 ≤ e.1) := by
  constructor
  · unfold hitTest
    constructor
    · intro h
      have hb : bestOf (consultedRows networkTiming row step) time none = none := by
        cases hbo : bestOf (consultedRows networkTiming row step) time none with
        | none => rfl
        | some c =>
          rw [hbo] at h
          exact absurd h (by simp)
      have hall := ((bestOf_spec time _ none).1.mp hb).2
      intro r hr e he
      have hiff := (rowCandidate_spec r time (hwf r hr)).1
      rw [hall r hr] at hiff
      cases hcv : covers e time with
      | false => rfl
      | true =>
        exact absurd (hiff.mpr ⟨e, he, hcv⟩) (by simp)
    · intro hall
      have hb : bestOf (consultedRows networkTiming row step) time none = none := by
        refine (bestOf_spec time _ none).1.mpr ⟨rfl, ?_⟩
        intro r hr
        cases hc : rowCandidate r time with
        | none => rfl
        | some c =>
          have hiff := (rowCandidate_spec r time (hwf r hr)).1
          rw [hc] at hiff
          obtain ⟨e, he, hcov⟩ := hiff.mp (by simp)
          rw [hall r hr e he] at hcov
          exact absurd hcov (by simp)
      rw [hb]
      rfl
  · intro m hm
    unfold hitTest at hm
    obtain ⟨c, hc, hcm⟩ := Option.map_eq_some'.mp hm
    obtain ⟨horig, -, hrowsBnd⟩ := (bestOf_spec time _ none).2 c hc
    rcases horig with habs | ⟨r, hr, hcand⟩
    · exact absurd habs (by simp)
    · obtain ⟨e, he, hes, hem, hcov, -⟩ :=
        (rowCandidate_spec r time (hwf r hr)).2 c.1 c.2 (by rw [hcand])
      refine ⟨r, hr, e, he, by rw [hem, hcm], hcov, ?_⟩
      intro r' hr' e' he' hcov'
      have hwfr' := hwf r' hr'
      have hsome : (rowCandidate r' time).isSome = true :=
        (rowCandidate_spec r' time hwfr').1.mpr ⟨e', he', hcov'⟩
      obtain ⟨d, hd⟩ := Option.isSome_iff_exists.mp hsome
      obtain ⟨-, -, -, -, -, hmax'⟩ :=
        (rowCandidate_spec r' time hwfr').2 d.1 d.2 (by rw [hd])
      have h1 : e'.1 ≤ d.1 := hmax' e' he' (covers_le hcov').1
      have h2 : d.1 ≤ c.1 := hrowsBnd r' hr' d hd
      rw [hes]
      exact le_trans h1 h2

/-- Witness for C9: a single consulted row whose marker starts after the
query time produces no covering marker, so the hit test returns null. -/
theorem claim9_witness : hitTest [[(10, 12, 3)]] 0 7 5 = none :=
  (claim9_hitTest_returns_closest [[(10, 12, 3)]] 0 7 5 (by decide)).1.mpr (by decide)

/-- C10: the hit test never reads a timing row out of bounds —
`bisectionRight` never exceeds the array length (so a positive result makes
`indexInRow` in bounds); on an empty row, and on a row all of whose starts
exceed the query time, `bisectionRight` returns 0, `indexInRow = −1`, and
the row is skipped, producing no match. -/
theorem claim10_no_out_of_bounds :
    (∀ (arr : List Int) (time : Int), bisectionRight arr time ≤ arr.length)
    ∧ (∀ time : Int, bisectionRight (timingStart []) time = 0
        ∧ rowCandidate [] time = none)
    ∧ (∀ (r : TimingRow) (time : Int), (∀ s ∈ timingStart r, time < s) →
        bisectionRight (timingStart r) time = 0 ∧ rowCandidate r time = none) := by
  refine ⟨fun arr time => bisectionRight_le arr time, ?_, ?_⟩
  · intro time
    exact ⟨rfl, rfl⟩
  · intro r time hgt
    have hb : bisectionRight (timingStart r) time = 0 := by
      cases hts : timingStart r with
      | nil => rfl
      | cons a l =>
        have ha : time < a := hgt a (by rw [hts]; simp)
        exact bisectionRight_cons_neg l (by omega)
    refine ⟨hb, ?_⟩
    unfold rowCandidate
    rw [if_pos hb]

/-- Witness for C10: a row whose only start (7) exceeds the query time 5 is
skipped with `bisectionRight = 0`. -/
theorem claim10_witness :
    bisectionRight (timingStart [(7, 9, 1)]) 5 = 0 ∧ rowCandidate [(7, 9, 1)] 5 = none :=
  claim10_no_out_of_bounds.2.2 [(7, 9, 1)] 5 (by decide)

/-- C6: logical row `i` is drawn at the vertical centre of visual lane
`i % R` (so rows `i` and `i + R` share a lane — the accepted visual
overlap), a pointer at height `y` inside lane `r` maps to row `r`, and the
hit test for lane `lane` consults exactly the logical rows `lane`,
`lane + R`, `lane + 2R`, … of the network timing. -/
theorem claim6_lane_mapping (stepR : Nat) (hstep : 1 ≤ stepR) :
    (∀ (i : Nat) (h : ℚ), rowY i stepR h = rowY (i % stepR) stepR h)
    ∧ (∀ (i : Nat) (h : ℚ), rowY (i + stepR) stepR h = rowY i stepR h)
    ∧ (∀ (y h : ℚ) (lane : Nat), 0 < h → (lane : ℚ) * h ≤ y →
        y < ((lane : ℚ) + 1) * h → hitTestRow y h = lane)
    ∧ (∀ (networkTiming : List TimingRow) (lane k : Nat),
        (consultedRows networkTiming lane stepR)[k]? = networkTiming[lane + k * stepR]?) := by
  refine ⟨?_, ?_, ?_, ?_⟩
  · intro i h
    unfold rowY
    rw [Nat.mod_mod_of_dvd i (dvd_refl stepR)]
  · intro i h
    unfold rowY
    rw [Nat.add_mod_right]
  · intro y h lane h0 h1 h2
    unfold hitTestRow
    rw [Int.floor_eq_iff]
    constructor
    · rw [le_div_iff₀ h0]
      push_cast
      exact h1
    · rw [div_lt_iff₀ h0]
      push_cast
      exact h2
  · intro networkTiming lane k
    exact consultedRows_getElem? networkTiming lane stepR k hstep

/-- Witness for C6: with `R = 3`, logical row 4 is drawn in lane 1, and the
second consulted row for lane 0 would be logical row 3 (absent here). -/
theorem claim6_witness :
    rowY 4 3 6 = rowY 1 3 6
    ∧ (consultedRows [[(0, 1, 0)], [(2, 3, 1)]] 0 3)[1]? = none := by
  constructor
  · have h1 := (claim6_lane_mapping 3 (by decide)).1 4 6
    norm_num at h1
    exact h1
  · have h2 := (claim6_lane_mapping 3 (by decide)).2.2.2 [[(0, 1, 0)], [(2, 3, 1)]] 0 1
    rw [h2]
    rfl

/-- One step of the max-depth scan: a sample inside the committed range
`[a, b)` with a non-null node raises the accumulator to that node's
depth. -/
def maxDepthStep (depthT : List Nat) (a b : Int) (acc : Int) (s : Int × Option Nat) : Int :=
  if a ≤ s.1 ∧ s.1 < b then
    match s.2 with
    | some n => max acc ((depthT.getD n 0 : Nat) : Int)
    | none => acc
  else acc

/-- Modelled from the spec (§4.8, the max-depth computer is not under
`src/`): scan the filtered per-sample node assignment restricted to the
committed range and return the maximal depth of any non-null mapped node,
starting from the sentinel `-1` (returned when no sample is visible). -/
def getCallNodeMaxDepth (samples : List (Int × Option Nat)) (depthT : List Nat)
    (a b : Int) : Int :=
  samples.foldl (maxDepthStep depthT a b) (-1)

theorem maxDepth_fold (depthT : List Nat) (a b : Int) :
    ∀ (samples : List (Int × Option Nat)) (acc : Int),
    acc ≤ samples.foldl (maxDepthStep depthT a b) acc
    ∧ (samples.foldl (maxDepthStep depthT a b) acc = acc
        ∨ ∃ s ∈ samples, ∃ n, (a ≤ s.1 ∧ s.1 < b) ∧ s.2 = some n
            ∧ ((depthT.getD n 0 : Nat) : Int) = samples.foldl (maxDepthStep depthT a b) acc)
    ∧ (∀ s ∈ samples, ∀ n, a ≤ s.1 → s.1 < b → s.2 = some n →
        ((depthT.getD n 0 : Nat) : Int) ≤ samples.foldl (maxDepthStep depthT a b) acc) := by
  intro samples
  induction samples with
  | nil =>
    intro acc
    exact ⟨le_refl _, Or.inl rfl, by simp⟩
  | cons s rest ih =>
    intro acc
    rw [List.foldl_cons]
    obtain ⟨hmono, horig, hbound⟩ := ih (maxDepthStep depthT a b acc s)
    have hstep : acc ≤ maxDepthStep depthT a b acc s := by
      unfold maxDepthStep
      by_cases hin : a ≤ s.1 ∧ s.1 < b
      · rw [if_pos hin]
        cases hsnd : s.2 with
        | none => exact le_refl _
        | some n => exact le_max_left _ _
      · rw [if_neg hin]
    refine ⟨le_trans hstep hmono, ?_, ?_⟩
    · rcases horig with heq | ⟨s', hs', n, hn⟩
      · rw [heq]
        unfold maxDepthStep
        by_cases hin : a ≤ s.1 ∧ s.1 < b
        · rw [if_pos hin]
          cases hsnd : s.2 with
          | none => exact Or.inl rfl
          | some n =>
            rcases max_choice acc ((depthT.getD n 0 : Nat) : Int) with hm | hm
            · exact Or.inl hm
            · exact Or.inr ⟨s, by simp, n, hin, hsnd, hm.symm⟩
        · rw [if_neg hin]
          exact Or.inl rfl
      · exact Or.inr ⟨s', by simp [hs'], n, hn⟩
    · intro s' hs' n ha' hb' hsome
      rcases List.mem_cons.mp hs' with rfl | hmem
      · refine le_trans ?_ hmono
        unfold maxDepthStep
        rw [if_pos ⟨ha', hb'⟩, hsome]
        exact le_max_right _ _
      · exact hbound s' hmem n ha' hb' hsome

/-- C5: the max-depth computer returns the maximal depth of any non-null
mapped node among samples inside the committed range `[a, b)`; it returns
the sentinel `-1` — distinct from 0, which callers must handle as "no
rows" — exactly when no sample in the range has a node, and otherwise its
result is `≥ 0` and attained by some visible sample. -/
theorem claim5_maxDepth_correct (samples : List (Int × Option Nat)) (depthT : List Nat)
    (a b : Int) :
    (getCallNodeMaxDepth samples depthT a b = -1
      ↔ ∀ s ∈ samples, a ≤ s.1 → s.1 < b → s.2 = none)
    ∧ (∀ s ∈ samples, ∀ n, a ≤ s.1 → s.1 < b → s.2 = some n →
        ((depthT.getD n 0 : Nat) : Int) ≤ getCallNodeMaxDepth samples depthT a b)
    ∧ (getCallNodeMaxDepth samples depthT a b ≠ -1 →
        0 ≤ getCallNodeMaxDepth samples depthT a b
        ∧ ∃ s ∈ samples, ∃ n, (a ≤ s.1 ∧ s.1 < b) ∧ s.2 = some n
            ∧ ((depthT.getD n 0 : Nat) : Int) = getCallNodeMaxDepth samples depthT a b) := by
  unfold getCallNodeMaxDepth
  obtain ⟨hmono, horig, hbound⟩ := maxDepth_fold depthT a b samples (-1)
  refine ⟨⟨?_, ?_⟩, hbound, ?_⟩
  · intro hm1 s hs ha' hb'
    cases hsnd : s.2 with
    | none => rfl
    | some n =>
      have hle := hbound s hs n ha' hb' hsnd
      rw [hm1] at hle
      exact absurd hle (by omega)
  · intro hnone
    rcases horig with heq | ⟨s, hs, n, ⟨ha', hb'⟩, hsome, -⟩
    · exact heq
    · exact absurd (hnone s hs ha' hb') (by rw [hsome]; simp)
  · intro hne
    rcases horig with heq | ⟨s, hs, n, hin, hsome, hval⟩
    · exact absurd heq hne
    · exact ⟨by omega, s, hs, n, hin, hsome, hval⟩

/-- The per-sample depths of the stack-chart fixture (depth of the deepest
stack entry of each sample, nodes coded by their depth), matching the test
comment table. -/
def maxDepthFixture : List (Int × Option Nat) :=
  [(0, some 1), (10, some 2), (20, some 2), (30, some 2), (40, some 0),
   (50, some 1), (60, some 2), (70, some 3), (80, some 6), (90, some 2)]

/-- Validation: on the fixture, the full range gives max depth 6 and the
committed range `[0, 20)` gives 2 — the values the repository's
`getCallNodeMaxDepthForStackChart` tests expect. -/
theorem maxDepth_matches_fixture :
    getCallNodeMaxDepth maxDepthFixture [0, 1, 2, 3, 4, 5, 6] 0 100 = 6
    ∧ getCallNodeMaxDepth maxDepthFixture [0, 1, 2, 3, 4, 5, 6] 0 20 = 2 := by decide

/-- Witness for C5: a committed range entirely outside all sample times
returns the sentinel `-1`, not 0. -/
theorem claim5_witness :
    getCallNodeMaxDepth maxDepthFixture [0, 1, 2, 3, 4, 5, 6] 200 300 = -1 :=
  (claim5_maxDepth_correct maxDepthFixture [0, 1, 2, 3, 4, 5, 6] 200 300).1.mpr (by decide)

/-- Modelled from the spec (§4.2, the platform-details filter is not under
`src/`): walk a node up its parent chain until a node matching the
implementation filter is found; a non-matching root collapses to itself.
The fuel argument only serves termination; `n + 1` steps suffice because a
parent always has a smaller index. -/
def collapseAux (parentT : List (Option Nat)) (m : Nat → Bool) : Nat → Nat → Nat
  | 0, n => n
  | fuel + 1, n =>
      if m n then n
      else
        match parentT.getD n none with
        | none => n
        | some p => collapseAux parentT m fuel p

/-- Hide platform details: collapse a node to its nearest ancestor
(itself included) matching the implementation filter, or to its root. -/
def collapseCallNode (parentT : List (Option Nat)) (m : Nat → Bool) (n : Nat) : Nat :=
  collapseAux parentT m (n + 1) n

/-- The per-sample assignment after hiding platform details. -/
def collapseSamples (parentT : List (Option Nat)) (m : Nat → Bool)
    (assignment : List (Option Nat)) : List (Option Nat) :=
  assignment.map (Option.map (collapseCallNode parentT m))

/-- Decidable form of the call-node-table invariant: every parent pointer
refers to a strictly smaller index. -/
def parentOK (parentT : List (Option Nat)) : Bool :=
  (List.range parentT.length).all (fun i =>
    match parentT.getD i none with
    | none => true
    | some p => decide (p < i))

theorem parentOK_spec {parentT : List (Option Nat)} (h : parentOK parentT = true) :
    ∀ i p, parentT.getD i none = some p → p < i := by
  intro i p hip
  by_cases hi : i < parentT.length
  · have := List.all_eq_true.mp h i (List.mem_range.mpr hi)
    rw [hip] at this
    simpa using this
  · rw [List.getD_eq_default parentT none (by omega)] at hip
    exact absurd hip (by simp)

/-- With enough fuel, the collapse lands on a node that either matches the
filter or is a root. -/
theorem collapseAux_lands (parentT : List (Option Nat)) (m : Nat → Bool)
    (hp : ∀ i p, parentT.getD i none = some p → p < i) :
    ∀ fuel n, n < fuel →
      m (collapseAux parentT m fuel n) = true
      ∨ parentT.getD (collapseAux parentT m fuel n) none = none := by
  intro fuel
  induction fuel with
  | zero =>
    intro n hn
    omega
  | succ f ih =>
    intro n hn
    simp only [collapseAux]
    by_cases hm : m n
    · rw [if_pos hm]
      exact Or.inl hm
    · rw [if_neg hm]
      cases hpar : parentT.getD n none with
      | none => exact Or.inr hpar
      | some p =>
        have hlt : p < n := hp n p hpar
        exact ih p (by omega)

/-- A node that matches the filter, or a root, is a fixed point of the
collapse. -/
theorem collapseCallNode_fixed (parentT : List (Option Nat)) (m : Nat → Bool)
    (hp : ∀ i p, parentT.getD i none = some p → p < i) (n : Nat) :
    collapseCallNode parentT m (collapseCallNode parentT m n)
      = collapseCallNode parentT m n := by
  have key1 : ∀ r : Nat, m r = true → collapseAux parentT m (r + 1) r = r := by
    intro r hr
    simp only [collapseAux]
    rw [if_pos hr]
  have key2 : ∀ r : Nat, parentT.getD r none = none → collapseAux parentT m (r + 1) r = r := by
    intro r hr
    simp only [collapseAux]
    by_cases hmr : m r
    · rw [if_pos hmr]
    · rw [if_neg hmr, hr]
  rcases collapseAux_lands parentT m hp (n + 1) n (by omega) with hm | hpar
  · exact key1 _ hm
  · exact key2 _ hpar

/-- C7: hiding platform details is idempotent — applying the collapse to
the per-sample node assignment twice yields the same assignment as
applying it once, for every parent table satisfying the call-node-table
invariant (parents precede children) and every implementation filter. -/
theorem claim7_hidePlatform_idempotent (parentT : List (Option Nat)) (m : Nat → Bool)
    (hp : parentOK parentT = true) (assignment : List (Option Nat)) :
    collapseSamples parentT m (collapseSamples parentT m assignment)
      = collapseSamples parentT m assignment := by
  unfold collapseSamples
  rw [List.map_map]
  refine List.map_congr_left ?_
  intro o _
  cases o with
  | none => rfl
  | some n =>
    simp only [Function.comp_apply, Option.map_some']
    rw [collapseCallNode_fixed parentT m (parentOK_spec hp) n]

/-- Witness for C7: a four-node chain where only node 0 matches the filter
(native nodes 1–3 all collapse to node 0; a second pass changes
nothing). -/
theorem claim7_witness :
    collapseSamples [none, some 0, some 1, some 1] (fun n => n == 0)
        (collapseSamples [none, some 0, some 1, some 1] (fun n => n == 0)
          [some 3, some 2, none, some 0])
      = collapseSamples [none, some 0, some 1, some 1] (fun n => n == 0)
          [some 3, some 2, none, some 0] :=
  claim7_hidePlatform_idempotent [none, some 0, some 1, some 1] (fun n => n == 0)
    (by decide) [some 3, some 2, none, some 0]

/-- A `LocalTrack` value as `LocalTrack.js` consumes it: a type tag plus
the indices the handled variants read. -/
structure LocalTrackData where
  type : String
  threadIndex : Nat
  counterIndex : Nat
  overheadIndex : Nat

/-- The outcome of `LocalTrackComponent.renderTrack`: one of the four
track components, or the default branch, which calls `console.error` and
renders `null` (it does not throw). -/
inductive RenderedTrack where
  | trackThread (threadIndex : Nat)
  | trackNetwork (threadIndex : Nat)
  | trackMemory (counterIndex : Nat)
  | trackOverhead (overheadIndex : Nat)
  | nullTrack
deriving DecidableEq

/-- Embedded from `LocalTrackComponent.renderTrack`
(`src/components/timeline/LocalTrack.js`, lines 79–99): a switch over
`localTrack.type`; the `default` branch logs
`console.error('Unhandled localTrack type', …)` and returns `null` — the
source carries a `TODO: change to exhaustive check` comment there. -/
def renderTrack (lt : LocalTrackData) : RenderedTrack :=
  if lt.type = "thread" then RenderedTrack.trackThread lt.threadIndex
  else if lt.type = "network" then RenderedTrack.trackNetwork lt.threadIndex
  else if lt.type = "memory" then RenderedTrack.trackMemory lt.counterIndex
  else if lt.type = "overhead" then RenderedTrack.trackOverhead lt.overheadIndex
  else RenderedTrack.nullTrack

/-- The slice of application state `mapStateToProps` reads. -/
structure AppState where
  selectedThreadIndex : Nat
  selectedTab : String
  threadProcessDetails : Nat → String
  counterDescription : Nat → String
  overheadTypeName : Nat → String

/-- Embedded from `LocalTrack.js` `mapStateToProps` (lines 147–182): a
switch over `localTrack.type` computing `(titleText, isSelected)`; the
`default` branch throws `assertExhaustiveCheck(localTrack, 'Unhandled
LocalTrack type.')`, modelled as `Except.error`. -/
def mapStateToProps (state : AppState) (lt : LocalTrackData) :
    Except String (Option String × Bool) :=
  if lt.type = "thread" then
    Except.ok (some (state.threadProcessDetails lt.threadIndex),
      decide (lt.threadIndex = state.selectedThreadIndex)
        && decide (state.selectedTab ≠ "network-chart"))
  else if lt.type = "network" then
    Except.ok (none,
      decide (lt.threadIndex = state.selectedThreadIndex)
        && decide (state.selectedTab = "network-chart"))
  else if lt.type = "memory" then
    Except.ok (some (state.counterDescription lt.counterIndex), false)
  else if lt.type = "overhead" then
    Except.ok (some (state.overheadTypeName lt.overheadIndex ++ " Overhead"), false)
  else Except.error ("Unhandled LocalTrack type.")

/-- A concrete application state for evaluating the dispatches. -/
def sampleAppState : AppState :=
  ⟨0, "calltree", fun _ => "details", fun _ => "memory counter", fun _ => "Native"⟩

/-- C8 evidence (code bug): on a type tag outside the closed variant set —
here `"flame-graph"` — the state mapping throws (`assertExhaustiveCheck`),
but the render dispatch does not: it logs `console.error` and renders
`null`, silently tolerating the unhandled tag, against the claim, the
spec's fail-loudly rule (§7) and the source's own
`TODO: change to exhaustive check` comment. -/
theorem claim8_render_does_not_throw :
    renderTrack ⟨"flame-graph", 0, 0, 0⟩ = RenderedTrack.nullTrack
    ∧ mapStateToProps sampleAppState ⟨"flame-graph", 0, 0, 0⟩
        = Except.error ("Unhandled LocalTrack type.")
    ∧ renderTrack ⟨"thread", 5, 0, 0⟩ = RenderedTrack.trackThread 5 := by
  refine ⟨by decide, ?_, by decide⟩
  rfl

end PerfHtml
